import Mathlib

/-!
Verification of `scripts/check_e2e_tests_are_captured_in_ci.py`.

The script extracts end-to-end test suite names from three places (the
`env.jobs` and `script` sections of `.travis.yml`, and the `suites` object of
`core/tests/protractor.conf.js`) with regular expressions, removes a fixed
allow-list from the protractor-derived list, and checks that the three lists
are non-empty, contain a sentinel suite name, and are pairwise equal.

Strings are modelled as `List Char`.  Each regular expression used by the
script is embedded as a matcher at a position plus a left-to-right
non-overlapping scan (`findallFrom`), mirroring Python's `re.findall`.
Python's `sorted` is modelled by stable insertion sort over the code-point
lexicographic order, and `list.remove` plus the raised exceptions of `main`
are modelled in the `Except` monad.
-/

/-! ## The embedded program -/

/-- Lexicographic comparison of char lists by code point, the order Python
uses to sort strings.  A proper prefix compares below its extensions. -/
def lexLe : List Char → List Char → Bool
  | [], _ => true
  | _ :: _, [] => false
  | a :: as, b :: bs => if a.toNat = b.toNat then lexLe as bs else decide (a.toNat < b.toNat)

/-- The order used by the model of Python `sorted`, as a `Prop`. -/
def strLe (a b : List Char) : Prop := lexLe a b = true

instance : DecidableRel strLe := fun a b => inferInstanceAs (Decidable (lexLe a b = true))

/-- Model of Python `sorted` on a list of strings: a stable sort by the
code-point lexicographic order. -/
def pySorted (l : List (List Char)) : List (List Char) := List.insertionSort strLe l

/-- The character class `[A-Z_]` of the jobs regex. -/
def isJobChar (c : Char) : Bool := ('A' ≤ c && c ≤ 'Z') || c = '_'

/-- The character class `[a-zA-Z_-]` of the script-section and key regexes. -/
def isSuiteChar (c : Char) : Bool :=
  ('a' ≤ c && c ≤ 'z') || ('A' ≤ c && c ≤ 'Z') || c = '_' || c = '-'

/-- Python's `\w` word-character class (ASCII part), used by `\b`. -/
def isWordChar (c : Char) : Bool :=
  ('a' ≤ c && c ≤ 'z') || ('A' ≤ c && c ≤ 'Z') || ('0' ≤ c && c ≤ '9') || c = '_'

/-- Python `str.lower` on a single ASCII character. -/
def pyLower (c : Char) : Char :=
  if 'A' ≤ c && c ≤ 'Z' then Char.ofNat (c.toNat + 32) else c

/-- Python `str.upper` on a single ASCII character. -/
def pyUpper (c : Char) : Char :=
  if 'a' ≤ c && c ≤ 'z' then Char.ofNat (c.toNat - 32) else c

/-- Python `str.split` on the underscore separator: `''.split('_') == ['']`,
`'a__b'.split('_') == ['a', '', 'b']`. -/
def splitUnderscore : List Char → List (List Char)
  | [] => [[]]
  | c :: cs =>
    if c = '_' then [] :: splitUnderscore cs
    else
      match splitUnderscore cs with
      | [] => [[c]]
      | g :: gs => (c :: g) :: gs

/-- Python `str.title` on a single already-lower-case word: upper-case the
first character. -/
def pyCapitalize : List Char → List Char
  | [] => []
  | c :: cs => pyUpper c :: cs

/-- Modelled from the spec: `utils.snake_case_to_camel_case` is imported from
`utils`, which is not under `src/`.  The spec says the upper-snake-case names
extracted from the jobs section are lower-cased and converted to camelCase:
split on underscores, keep the first component unchanged, and capitalize each
later component. -/
def snake_case_to_camel_case (s : List Char) : List Char :=
  match splitUnderscore s with
  | [] => []
  | c :: cs => c ++ (cs.map pyCapitalize).flatten

/-- Match a literal prefix: `stripLit lit s = some t` when `s = lit ++ t`. -/
def stripLit : List Char → List Char → Option (List Char)
  | [], s => some s
  | _ :: _, [] => none
  | c :: cs, d :: ds => if c = d then stripLit cs ds else none

/-- One step of `re.findall`: fuel-indexed left-to-right scan that applies the
position matcher `m`, emits the captured group on success and resumes after
the consumed text, and otherwise advances one character. -/
def findallAux (m : List Char → Option (List Char × List Char)) : Nat → List Char → List (List Char)
  | _, [] => []
  | 0, _ :: _ => []
  | n + 1, c :: cs =>
    match m (c :: cs) with
    | some (g, rest) => g :: findallAux m n rest
    | none => findallAux m n cs

/-- `re.findall` for a regex whose position matcher is `m`: scan with fuel
equal to the length of the text, which suffices whenever every successful
match consumes at least one character. -/
def findallFrom (m : List Char → Option (List Char × List Char)) (s : List Char) :
    List (List Char) :=
  findallAux m s.length s

/-- The literal part of the jobs regex. -/
def jobsLit : List Char := ("RUN_E2E_TESTS_").toList

/-- Position matcher of `RUN_E2E_TESTS_([A-Z_]*)=`: the fixed literal, then a
greedy run of `[A-Z_]`, then `=`.  Because `=` is not in the class, only the
maximal run can be followed by `=`, so greedy matching needs no backtracking. -/
def matchJobsAt (s : List Char) : Option (List Char × List Char) :=
  match stripLit jobsLit s with
  | none => none
  | some t =>
    match List.dropWhile isJobChar t with
    | [] => none
    | d :: rest => if d = '=' then some (List.takeWhile isJobChar t, rest) else none

/-- The group captured for `FOO_BAR`. -/
def fooG : List Char := ("FOO_BAR").toList

/-- The matched text of the claimed occurrence, literal plus group plus `=`. -/
def jobsT : List Char := jobsLit ++ fooG ++ ['=']

/-- `get_e2e_suite_names_from_jobs_travis_yml_file`, acting on the `env.jobs`
string extracted from the already-parsed YAML mapping: find all matches of
`RUN_E2E_TESTS_([A-Z_]*)=`, lower-case each group, convert it from snake case
to camel case, and sort. -/
def get_e2e_suite_names_from_jobs_travis_yml_file (jobs_str : List Char) : List (List Char) :=
  pySorted ((findallFrom matchJobsAt jobs_str).map
    (fun job => snake_case_to_camel_case (job.map pyLower)))

/-- The double-quote character. -/
def quoteChar : Char := Char.ofNat 34

/-- The literal before the `.` wildcard of the script regex. -/
def scriptLit1 : List Char := ("bash scripts/run_e2e_tests").toList

/-- The literal between the `.` wildcard and the capture group, ending in the
opening double quote. -/
def scriptLit2 : List Char := ("sh --suite=" ++ String.singleton quoteChar).toList

/-- Position matcher of `bash scripts/run_e2e_tests.sh --suite="([a-zA-Z_-]*)"`:
first literal, one wildcard character (any character except newline), second
literal, then a greedy run of `[a-zA-Z_-]` closed by a double quote. -/
def matchScriptAt (s : List Char) : Option (List Char × List Char) :=
  match stripLit scriptLit1 s with
  | none => none
  | some t =>
    match t with
    | [] => none
    | wc :: t2 =>
      if wc = '\n' then none
      else
        match stripLit scriptLit2 t2 with
        | none => none
        | some t3 =>
          match List.dropWhile isSuiteChar t3 with
          | [] => none
          | d :: rest =>
            if d = quoteChar then some (List.takeWhile isSuiteChar t3, rest) else none

/-- The group captured for `accessibility`. -/
def accG : List Char := ("accessibility").toList

/-- The matched text of the claimed occurrence in the `script` section. -/
def scriptT : List Char := scriptLit1 ++ '.' :: (scriptLit2 ++ (accG ++ [quoteChar]))

/-- `get_e2e_suite_names_from_script_travis_yml_file`, acting on the `script`
string extracted from the already-parsed YAML mapping: find all matches of
the invocation pattern and sort the captured suite names. -/
def get_e2e_suite_names_from_script_travis_yml_file (script_str : List Char) : List (List Char) :=
  pySorted (findallFrom matchScriptAt script_str)

/-- The opening-brace character. -/
def lBrace : Char := Char.ofNat 123

/-- The closing-brace character. -/
def rBrace : Char := Char.ofNat 125

/-- The character class `[^}]`. -/
def notRBrace (c : Char) : Bool := !(c = rBrace)

/-- The literal part of the suites regex, `suites = ` followed by the opening
brace. -/
def suitesLit : List Char := ("suites = ").toList ++ [lBrace]

/-- Position matcher of `suites = {([^}]+)}`: the fixed literal, then a greedy
non-empty run of characters other than the closing brace, then the closing
brace. -/
def matchSuitesAt (s : List Char) : Option (List Char × List Char) :=
  match stripLit suitesLit s with
  | none => none
  | some t =>
    match List.dropWhile notRBrace t with
    | [] => none
    | d :: rest =>
      if d = rBrace then
        if List.takeWhile notRBrace t = [] then none
        else some (List.takeWhile notRBrace t, rest)
      else none

/-- Position matcher of the key regex `\b([a-zA-Z_-]*):`.  The word-boundary
`\b` needs one character of context to the left: `prevWord` says whether the
character before the current position is a word character (`false` at the
start of the text).  After the boundary comes a greedy run of `[a-zA-Z_-]`
closed by `:`. -/
def matchKeysAt (prevWord : Bool) (s : List Char) : Option (List Char × List Char) :=
  match s with
  | [] => none
  | c :: _ =>
    if prevWord = isWordChar c then none
    else
      match List.dropWhile isSuiteChar s with
      | [] => none
      | d :: rest => if d = ':' then some (List.takeWhile isSuiteChar s, rest) else none

/-- Scan for the key regex, threading the wordness of the previous character
for `\b`; a successful match always ends in `:`, which is not a word
character. -/
def keysFindallAux : Nat → Bool → List Char → List (List Char)
  | _, _, [] => []
  | 0, _, _ :: _ => []
  | n + 1, prev, c :: cs =>
    match matchKeysAt prev (c :: cs) with
    | some (g, rest) => g :: keysFindallAux n false rest
    | none => keysFindallAux n (isWordChar c) cs

/-- `re.findall` of the key regex `\b([a-zA-Z_-]*):` over a text. -/
def keysFindall (s : List Char) : List (List Char) := keysFindallAux s.length false s

/-- `get_e2e_suite_names_from_protractor_file`, acting on the raw text of
`protractor.conf.js`.  The Python code indexes `findall(...)[0]`, which raises
`IndexError` when there is no match; the failure is modelled as `none`. -/
def get_e2e_suite_names_from_protractor_file (file_content : List Char) :
    Option (List (List Char)) :=
  match (findallFrom matchSuitesAt file_content).head? with
  | none => none
  | some suite_object_string => some (pySorted (keysFindall suite_object_string))

/-- The four test suites removed from the protractor-derived list before the
comparison. -/
def TEST_SUITES_NOT_RUN_ON_TRAVIS : List String :=
  ["full", "classroomPageFileUploadFeatures", "fileUploadFeatures",
    "topicAndStoryEditorFileUploadFeatures"]

/-- The sentinel suite name checked in all three lists. -/
def SAMPLE_TEST_SUITE_THAT_IS_KNOWN_TO_EXIST : String := "explorationImprovementsTab"

/-- An abnormal outcome of `main`: either a `ValueError` escaping from
`list.remove`, or one of the seven explicitly raised `Exception`s, with its
message. -/
inductive CheckError where
  | valueError (msg : String)
  | validation (msg : String)
deriving DecidableEq

/-- Message of the `ValueError` raised by `list.remove` on a missing item. -/
def removeErrMsg : String := "list.remove(x): x not in list"

/-- Message raised when the jobs-derived list is empty. -/
def msgEmptyJobs : String :=
  "The e2e test suites that have been extracted from jobs section from travis.ci are empty."

/-- Message raised when the script-derived list is empty. -/
def msgEmptyScripts : String :=
  "The e2e test suites that have been extracted from script section from travis.ci are empty."

/-- Message raised when the adjusted protractor-derived list is empty. -/
def msgEmptyProtractor : String :=
  "The e2e test suites that have been extracted from protractor.conf.js are empty."

/-- Message raised when the sentinel is missing from the jobs-derived list. -/
def msgSentinelJobs : String :=
  "explorationImprovementsTab is expected to be in the e2e test suites extracted from the jobs section of .travis.yml file, but it is missing."

/-- Message raised when the sentinel is missing from the script-derived list. -/
def msgSentinelScripts : String :=
  "explorationImprovementsTab is expected to be in the e2e test suites extracted from the script section of .travis.yml file, but it is missing."

/-- Message raised when the sentinel is missing from the adjusted
protractor-derived list. -/
def msgSentinelProtractor : String :=
  "explorationImprovementsTab is expected to be in the e2e test suites extracted from the protractor.conf.js file, but it is missing."

/-- Message raised when the three lists are not identical. -/
def msgNotInSync : String :=
  "Protractor test suites and Travis Ci test suites are not in sync."

/-- Python `list.remove`: delete the first occurrence of `x`, raising
`ValueError` when `x` is absent. -/
def pyRemove (x : String) : List String → Except CheckError (List String)
  | [] => Except.error (CheckError.valueError removeErrMsg)
  | y :: ys =>
    if y = x then Except.ok ys
    else Except.map (fun l => y :: l) (pyRemove x ys)

/-- The removal loop of `main`: remove each allow-listed suite in turn from
the protractor-derived list, stopping at the first `ValueError`. -/
def removeExcluded (l : List String) : Except CheckError (List String) :=
  List.foldlM (fun acc t => pyRemove t acc) l TEST_SUITES_NOT_RUN_ON_TRAVIS

/-- The checks of `main` after the removal loop, on the adjusted
protractor-derived list and the two travis-derived lists, in source order:
three emptiness checks, three sentinel checks, one equality check.  Success
returns the printed completion message. -/
def checksAfterRemoval (protractor_test_suites yaml_jobs yaml_scripts : List String) :
    Except CheckError String :=
  if yaml_jobs = [] then Except.error (CheckError.validation msgEmptyJobs)
  else if yaml_scripts = [] then Except.error (CheckError.validation msgEmptyScripts)
  else if protractor_test_suites = [] then Except.error (CheckError.validation msgEmptyProtractor)
  else if SAMPLE_TEST_SUITE_THAT_IS_KNOWN_TO_EXIST ∉ yaml_jobs then
    Except.error (CheckError.validation msgSentinelJobs)
  else if SAMPLE_TEST_SUITE_THAT_IS_KNOWN_TO_EXIST ∉ yaml_scripts then
    Except.error (CheckError.validation msgSentinelScripts)
  else if SAMPLE_TEST_SUITE_THAT_IS_KNOWN_TO_EXIST ∉ protractor_test_suites then
    Except.error (CheckError.validation msgSentinelProtractor)
  else if ¬ (protractor_test_suites = yaml_jobs ∧ yaml_jobs = yaml_scripts) then
    Except.error (CheckError.validation msgNotInSync)
  else Except.ok "Done!"

/-- The body of the script's `main` after the three extraction calls, on the
three extracted lists (the name `main` is reserved by Lean): run the removal
loop on the protractor-derived list, then the checks.  Success returns the
printed completion message "Done!". -/
def mainChecks (protractor_test_suites yaml_jobs yaml_scripts : List String) :
    Except CheckError String :=
  Except.bind (removeExcluded protractor_test_suites)
    (fun adjusted => checksAfterRemoval adjusted yaml_jobs yaml_scripts)

/-- The brace-free block of the suites object named by claim C5. -/
def alphaBlock : List Char := (" alpha: [...], betaGamma: [...] ").toList

/-! ## Properties -/

theorem lexLe_cons_cons (x y : Char) (xs ys : List Char) :
    lexLe (x :: xs) (y :: ys) =
      if x.toNat = y.toNat then lexLe xs ys else decide (x.toNat < y.toNat) := rfl

theorem lexLe_total : ∀ a b : List Char, lexLe a b = true ∨ lexLe b a = true := by
  intro a
  induction a with
  | nil => intro b; left; rfl
  | cons x xs ih =>
    intro b
    cases b with
    | nil => right; rfl
    | cons y ys =>
      by_cases hxy : x.toNat = y.toNat
      · have hyx : y.toNat = x.toNat := hxy.symm
        rw [lexLe_cons_cons, lexLe_cons_cons, if_pos hxy, if_pos hyx]
        exact ih ys
      · have hyx : ¬ y.toNat = x.toNat := fun e => hxy e.symm
        rcases Nat.lt_or_ge x.toNat y.toNat with h | h
        · left
          rw [lexLe_cons_cons, if_neg hxy]
          exact decide_eq_true h
        · right
          rw [lexLe_cons_cons, if_neg hyx]
          exact decide_eq_true (Nat.lt_of_le_of_ne h hyx)

theorem lexLe_trans : ∀ a b c : List Char,
    lexLe a b = true → lexLe b c = true → lexLe a c = true := by
  intro a
  induction a with
  | nil => intro b c _ _; rfl
  | cons x xs ih =>
    intro b c hab hbc
    cases b with
    | nil => exact absurd hab (by rw [show lexLe (x :: xs) [] = false from rfl]; exact Bool.false_ne_true)
    | cons y ys =>
      cases c with
      | nil => exact absurd hbc (by rw [show lexLe (y :: ys) [] = false from rfl]; exact Bool.false_ne_true)
      | cons z zs =>
        rw [lexLe_cons_cons] at hab hbc
        rw [lexLe_cons_cons]
        by_cases hxy : x.toNat = y.toNat <;> by_cases hyz : y.toNat = z.toNat
        · rw [if_pos hxy] at hab
          rw [if_pos hyz] at hbc
          rw [if_pos (hxy.trans hyz)]
          exact ih ys zs hab hbc
        · rw [if_pos hxy] at hab
          rw [if_neg hyz] at hbc
          have hbc2 : y.toNat < z.toNat := of_decide_eq_true hbc
          have hxz : ¬ x.toNat = z.toNat := by omega
          rw [if_neg hxz]
          exact decide_eq_true (by omega)
        · rw [if_neg hxy] at hab
          rw [if_pos hyz] at hbc
          have hab2 : x.toNat < y.toNat := of_decide_eq_true hab
          have hxz : ¬ x.toNat = z.toNat := by omega
          rw [if_neg hxz]
          exact decide_eq_true (by omega)
        · rw [if_neg hxy] at hab
          rw [if_neg hyz] at hbc
          have hab2 : x.toNat < y.toNat := of_decide_eq_true hab
          have hbc2 : y.toNat < z.toNat := of_decide_eq_true hbc
          have hxz : ¬ x.toNat = z.toNat := by omega
          rw [if_neg hxz]
          exact decide_eq_true (by omega)

theorem pySorted_perm (l : List (List Char)) : List.Perm (pySorted l) l :=
  List.perm_insertionSort strLe l

theorem pySorted_sorted (l : List (List Char)) : List.Pairwise strLe (pySorted l) :=
  @List.sorted_insertionSort (List Char) strLe
    (fun a b => inferInstanceAs (Decidable (lexLe a b = true)))
    ⟨lexLe_total⟩ ⟨fun a b c => lexLe_trans a b c⟩ l

theorem mem_pySorted {x : List Char} {l : List (List Char)} (h : x ∈ l) : x ∈ pySorted l :=
  (List.Perm.mem_iff (pySorted_perm l)).mpr h

theorem stripLit_append : ∀ (l t : List Char), stripLit l (l ++ t) = some t := by
  intro l
  induction l with
  | nil => intro t; rfl
  | cons c cs ih =>
    intro t
    show (if c = c then stripLit cs (cs ++ t) else none) = some t
    rw [if_pos rfl]
    exact ih t

theorem stripLit_eq_some : ∀ {l s t : List Char}, stripLit l s = some t → s = l ++ t := by
  intro l
  induction l with
  | nil =>
    intro s t h
    rw [List.nil_append]
    exact Option.some.inj h
  | cons c cs ih =>
    intro s t h
    cases s with
    | nil => exact absurd h (by exact Option.noConfusion)
    | cons d ds =>
      by_cases hcd : c = d
      · have h2 : stripLit cs ds = some t := by
          rw [show stripLit (c :: cs) (d :: ds) = if c = d then stripLit cs ds else none from rfl,
            if_pos hcd] at h
          exact h
        rw [ih h2, hcd]
        rfl
      · rw [show stripLit (c :: cs) (d :: ds) = if c = d then stripLit cs ds else none from rfl,
          if_neg hcd] at h
        exact absurd h (by exact Option.noConfusion)

theorem takeWhile_append_stop (p : Char → Bool) :
    ∀ (xs : List Char), (∀ x ∈ xs, p x = true) → ∀ (y : Char), p y = false →
      ∀ (ys : List Char), List.takeWhile p (xs ++ y :: ys) = xs := by
  intro xs
  induction xs with
  | nil =>
    intro _ y hy ys
    show List.takeWhile p (y :: ys) = []
    rw [List.takeWhile_cons, hy]
    simp
  | cons x xs ih =>
    intro hall y hy ys
    have hx : p x = true := hall x (List.mem_cons_self x xs)
    show List.takeWhile p (x :: (xs ++ y :: ys)) = x :: xs
    rw [List.takeWhile_cons, hx]
    rw [ih (fun a ha => hall a (List.mem_cons_of_mem x ha)) y hy ys]
    simp

theorem dropWhile_append_stop (p : Char → Bool) :
    ∀ (xs : List Char), (∀ x ∈ xs, p x = true) → ∀ (y : Char), p y = false →
      ∀ (ys : List Char), List.dropWhile p (xs ++ y :: ys) = y :: ys := by
  intro xs
  induction xs with
  | nil =>
    intro _ y hy ys
    show List.dropWhile p (y :: ys) = y :: ys
    rw [List.dropWhile_cons, hy]
    simp
  | cons x xs ih =>
    intro hall y hy ys
    have hx : p x = true := hall x (List.mem_cons_self x xs)
    show List.dropWhile p (x :: (xs ++ y :: ys)) = y :: ys
    rw [List.dropWhile_cons, hx]
    simp only [if_true]
    exact ih (fun a ha => hall a (List.mem_cons_of_mem x ha)) y hy ys

theorem mem_takeWhile_pred (p : Char → Bool) :
    ∀ (l : List Char) (x : Char), x ∈ List.takeWhile p l → p x = true := by
  intro l
  induction l with
  | nil => intro x hx; exact absurd hx (by simp)
  | cons c cs ih =>
    intro x hx
    rw [List.takeWhile_cons] at hx
    by_cases hc : p c
    · rw [if_pos hc] at hx
      rcases List.mem_cons.mp hx with h | h
      · rw [h]; exact hc
      · exact ih x h
    · rw [if_neg hc] at hx
      exact absurd hx (by simp)

theorem findallAux_stable (m : List Char → Option (List Char × List Char))
    (hm : ∀ s g rest, m s = some (g, rest) → rest.length < s.length) :
    ∀ n k s, s.length ≤ n → s.length ≤ k → findallAux m n s = findallAux m k s := by
  intro n
  induction n with
  | zero =>
    intro k s hn _
    have : s = [] := List.eq_nil_of_length_eq_zero (Nat.le_zero.mp hn)
    subst this
    cases k <;> rfl
  | succ n ih =>
    intro k s hn hk
    cases s with
    | nil => cases k <;> rfl
    | cons c cs =>
      cases k with
      | zero => exact absurd hk (by simp)
      | succ k =>
        cases hmc : m (c :: cs) with
        | some gr =>
          obtain ⟨g, rest⟩ := gr
          have hlt := hm _ _ _ hmc
          simp only [List.length_cons] at hn hk hlt
          show findallAux m (n + 1) (c :: cs) = findallAux m (k + 1) (c :: cs)
          simp only [findallAux, hmc]
          exact congrArg _ (ih k rest (by omega) (by omega))
        | none =>
          simp only [List.length_cons] at hn hk
          show findallAux m (n + 1) (c :: cs) = findallAux m (k + 1) (c :: cs)
          simp only [findallAux, hmc]
          exact ih k cs (by omega) (by omega)

theorem findallFrom_cons_some {m : List Char → Option (List Char × List Char)}
    (hm : ∀ s g rest, m s = some (g, rest) → rest.length < s.length)
    {c : Char} {cs g rest : List Char} (h : m (c :: cs) = some (g, rest)) :
    findallFrom m (c :: cs) = g :: findallFrom m rest := by
  show findallAux m (cs.length + 1) (c :: cs) = g :: findallFrom m rest
  simp only [findallAux, h]
  have hlt := hm _ _ _ h
  simp only [List.length_cons] at hlt
  rw [findallAux_stable m hm cs.length rest.length rest (by omega) (by omega)]
  rfl

theorem findallFrom_cons_none {m : List Char → Option (List Char × List Char)}
    {c : Char} {cs : List Char} (h : m (c :: cs) = none) :
    findallFrom m (c :: cs) = findallFrom m cs := by
  show findallAux m (cs.length + 1) (c :: cs) = findallFrom m cs
  simp only [findallAux, h]
  rfl

theorem matchJobsAt_eq_some {s g rest : List Char} (h : matchJobsAt s = some (g, rest)) :
    s = jobsLit ++ (g ++ '=' :: rest) ∧ ∀ c ∈ g, isJobChar c = true := by
  unfold matchJobsAt at h
  cases hstrip : stripLit jobsLit s with
  | none => simp [hstrip] at h
  | some t =>
    simp only [hstrip] at h
    cases hdrop : List.dropWhile isJobChar t with
    | nil => simp [hdrop] at h
    | cons d rest2 =>
      simp only [hdrop] at h
      by_cases hd : d = '='
      · rw [if_pos hd] at h
        have hg : List.takeWhile isJobChar t = g := congrArg Prod.fst (Option.some.inj h)
        have hr : rest2 = rest := congrArg Prod.snd (Option.some.inj h)
        constructor
        · have ht : t = g ++ '=' :: rest := by
            rw [← hg, ← hr, ← hd]
            rw [← hdrop]
            exact (List.takeWhile_append_dropWhile isJobChar t).symm
          rw [← ht]
          exact stripLit_eq_some hstrip
        · intro c hc
          rw [← hg] at hc
          exact mem_takeWhile_pred isJobChar t c hc
      · rw [if_neg hd] at h
        exact absurd h (by exact Option.noConfusion)

theorem matchJobsAt_target (w : List Char) : matchJobsAt (jobsT ++ w) = some (fooG, w) := by
  have h1 : jobsT ++ w = jobsLit ++ (fooG ++ '=' :: w) := by
    simp [jobsT, List.append_assoc]
  rw [h1]
  unfold matchJobsAt
  rw [stripLit_append]
  show (match List.dropWhile isJobChar (fooG ++ '=' :: w) with
    | [] => none
    | d :: rest =>
      if d = '=' then some (List.takeWhile isJobChar (fooG ++ '=' :: w), rest) else none) =
    some (fooG, w)
  rw [dropWhile_append_stop isJobChar fooG (by decide) '=' (by decide) w]
  show (if ('=' : Char) = '=' then
      some (List.takeWhile isJobChar (fooG ++ '=' :: w), w) else none) = some (fooG, w)
  rw [if_pos rfl, takeWhile_append_stop isJobChar fooG (by decide) '=' (by decide) w]

theorem matchJobsAt_consumes :
    ∀ s g rest, matchJobsAt s = some (g, rest) → rest.length < s.length := by
  intro s g rest h
  obtain ⟨hs, -⟩ := matchJobsAt_eq_some h
  rw [hs]
  simp [List.length_append]
  omega

theorem matchScriptAt_eq_some {s g rest : List Char} (h : matchScriptAt s = some (g, rest)) :
    (∃ wc : Char, s = scriptLit1 ++ wc :: (scriptLit2 ++ (g ++ quoteChar :: rest)))
      ∧ ∀ c ∈ g, isSuiteChar c = true := by
  unfold matchScriptAt at h
  cases hstrip : stripLit scriptLit1 s with
  | none => simp [hstrip] at h
  | some t =>
    simp only [hstrip] at h
    cases t with
    | nil => simp at h
    | cons wc t2 =>
      dsimp only at h
      by_cases hwc : wc = '\n'
      · rw [if_pos hwc] at h; exact absurd h (by exact Option.noConfusion)
      · rw [if_neg hwc] at h
        cases hstrip2 : stripLit scriptLit2 t2 with
        | none => simp [hstrip2] at h
        | some t3 =>
          simp only [hstrip2] at h
          cases hdrop : List.dropWhile isSuiteChar t3 with
          | nil => simp [hdrop] at h
          | cons d rest2 =>
            simp only [hdrop] at h
            by_cases hd : d = quoteChar
            · rw [if_pos hd] at h
              have hg : List.takeWhile isSuiteChar t3 = g :=
                congrArg Prod.fst (Option.some.inj h)
              have hr : rest2 = rest := congrArg Prod.snd (Option.some.inj h)
              constructor
              · refine ⟨wc, ?_⟩
                have ht3 : t3 = g ++ quoteChar :: rest := by
                  rw [← hg, ← hr, ← hd, ← hdrop]
                  exact (List.takeWhile_append_dropWhile isSuiteChar t3).symm
                have ht2 : t2 = scriptLit2 ++ (g ++ quoteChar :: rest) := by
                  rw [← ht3]
                  exact stripLit_eq_some hstrip2
                rw [← ht2]
                exact stripLit_eq_some hstrip
              · intro c hc
                rw [← hg] at hc
                exact mem_takeWhile_pred isSuiteChar t3 c hc
            · rw [if_neg hd] at h
              exact absurd h (by exact Option.noConfusion)

theorem matchScriptAt_target (w : List Char) : matchScriptAt (scriptT ++ w) = some (accG, w) := by
  have h1 : scriptT ++ w = scriptLit1 ++ '.' :: (scriptLit2 ++ (accG ++ quoteChar :: w)) := by
    simp [scriptT, List.append_assoc]
  rw [h1]
  unfold matchScriptAt
  rw [stripLit_append]
  show (if ('.' : Char) = '\n' then none
    else
      match stripLit scriptLit2 (scriptLit2 ++ (accG ++ quoteChar :: w)) with
      | none => none
      | some t3 =>
        match List.dropWhile isSuiteChar t3 with
        | [] => none
        | d :: rest =>
          if d = quoteChar then some (List.takeWhile isSuiteChar t3, rest) else none) =
    some (accG, w)
  rw [if_neg (by decide), stripLit_append]
  show (match List.dropWhile isSuiteChar (accG ++ quoteChar :: w) with
    | [] => none
    | d :: rest =>
      if d = quoteChar then some (List.takeWhile isSuiteChar (accG ++ quoteChar :: w), rest)
      else none) = some (accG, w)
  rw [dropWhile_append_stop isSuiteChar accG (by decide) quoteChar (by decide) w]
  show (if quoteChar = quoteChar then
      some (List.takeWhile isSuiteChar (accG ++ quoteChar :: w), w) else none) = some (accG, w)
  rw [if_pos rfl, takeWhile_append_stop isSuiteChar accG (by decide) quoteChar (by decide) w]

theorem matchScriptAt_consumes :
    ∀ s g rest, matchScriptAt s = some (g, rest) → rest.length < s.length := by
  intro s g rest h
  obtain ⟨⟨wc, hs⟩, -⟩ := matchScriptAt_eq_some h
  rw [hs]
  simp [List.length_append]
  omega

theorem matchSuitesAt_eq_some {s g rest : List Char} (h : matchSuitesAt s = some (g, rest)) :
    s = suitesLit ++ (g ++ rBrace :: rest) ∧ g ≠ [] ∧ ∀ c ∈ g, notRBrace c = true := by
  unfold matchSuitesAt at h
  cases hstrip : stripLit suitesLit s with
  | none => simp [hstrip] at h
  | some t =>
    simp only [hstrip] at h
    cases hdrop : List.dropWhile notRBrace t with
    | nil => simp [hdrop] at h
    | cons d rest2 =>
      simp only [hdrop] at h
      by_cases hd : d = rBrace
      · rw [if_pos hd] at h
        by_cases hemp : List.takeWhile notRBrace t = []
        · rw [if_pos hemp] at h
          exact absurd h (by exact Option.noConfusion)
        · rw [if_neg hemp] at h
          have hg : List.takeWhile notRBrace t = g := congrArg Prod.fst (Option.some.inj h)
          have hr : rest2 = rest := congrArg Prod.snd (Option.some.inj h)
          refine ⟨?_, ?_, ?_⟩
          · have ht : t = g ++ rBrace :: rest := by
              rw [← hg, ← hr, ← hd, ← hdrop]
              exact (List.takeWhile_append_dropWhile notRBrace t).symm
            rw [← ht]
            exact stripLit_eq_some hstrip
          · rw [← hg]; exact hemp
          · intro c hc
            rw [← hg] at hc
            exact mem_takeWhile_pred notRBrace t c hc
      · rw [if_neg hd] at h
        exact absurd h (by exact Option.noConfusion)

theorem matchSuitesAt_consumes :
    ∀ s g rest, matchSuitesAt s = some (g, rest) → rest.length < s.length := by
  intro s g rest h
  obtain ⟨hs, -, -⟩ := matchSuitesAt_eq_some h
  rw [hs]
  simp [List.length_append]
  omega

/-- Helper for building first-match facts: matching the suites pattern right
at an occurrence of the literal followed by a brace-free non-empty block and
a closing brace. -/
theorem matchSuitesAt_block (g w : List Char) (hg : g ≠ [])
    (hall : ∀ c ∈ g, notRBrace c = true) :
    matchSuitesAt (suitesLit ++ (g ++ rBrace :: w)) = some (g, w) := by
  unfold matchSuitesAt
  rw [stripLit_append]
  show (match List.dropWhile notRBrace (g ++ rBrace :: w) with
    | [] => none
    | d :: rest =>
      if d = rBrace then
        if List.takeWhile notRBrace (g ++ rBrace :: w) = [] then none
        else some (List.takeWhile notRBrace (g ++ rBrace :: w), rest)
      else none) = some (g, w)
  rw [dropWhile_append_stop notRBrace g hall rBrace (by decide) w]
  show (if rBrace = rBrace then
      if List.takeWhile notRBrace (g ++ rBrace :: w) = [] then none
      else some (List.takeWhile notRBrace (g ++ rBrace :: w), w)
    else none) = some (g, w)
  rw [if_pos rfl, takeWhile_append_stop notRBrace g hall rBrace (by decide) w, if_neg hg]

/-! ### The occurrence of `RUN_E2E_TESTS_FOO_BAR=` is always found

The scan of `findallFrom` never jumps over an occurrence of the matched text
`jobsT`: a successful match overlapping the start of the occurrence would
need the character `2` of `RUN_E2E_TESTS_` to lie in its `[A-Z_]*` run or on
its final `=`, or the occurrence's first five characters `RUN_E` to contain
`=`, all impossible; a match starting exactly at the occurrence captures
`FOO_BAR`. -/

theorem jobsLit_len : jobsLit.length = 14 := rfl

theorem jobsT_len : jobsT.length = 22 := rfl

theorem jobsLit_two_only_at_5 : ∀ j : Nat, j < 14 → jobsLit[j]? = some ('2') → j = 5 := by
  decide

theorem jobsT_head_no_eq : ∀ j : Nat, j < 5 → ¬ (jobsT[j]? = some ('=')) := by
  decide

theorem fooG_mem_jobsFindall_aux :
    ∀ n s u w, s.length ≤ n → s = u ++ (jobsT ++ w) →
      fooG ∈ findallFrom matchJobsAt s := by
  intro n
  induction n with
  | zero =>
    intro s u w hle hs
    exfalso
    rw [hs] at hle
    simp [List.length_append] at hle
    exact absurd hle.2.1 (by decide)
  | succ n ih =>
    intro s u w hle hs
    cases s with
    | nil =>
      exfalso
      have := congrArg List.length hs
      simp [List.length_append] at this
      rw [jobsT_len] at this
      omega
    | cons c cs =>
      cases hm : matchJobsAt (c :: cs) with
      | none =>
        rw [findallFrom_cons_none hm]
        cases u with
        | nil =>
          exfalso
          rw [List.nil_append] at hs
          rw [hs, matchJobsAt_target w] at hm
          exact Option.noConfusion hm
        | cons a u2 =>
          have hx : c :: cs = a :: (u2 ++ (jobsT ++ w)) := by rw [hs]; rfl
          injection hx with hx1 hx2
          have hlen : cs.length ≤ n := by
            simp [List.length_cons] at hle
            omega
          exact ih cs u2 w hlen hx2
      | some gr =>
        obtain ⟨g, rest⟩ := gr
        obtain ⟨hdec, hall⟩ := matchJobsAt_eq_some hm
        rw [findallFrom_cons_some matchJobsAt_consumes hm]
        have h14 : jobsLit.length = 14 := rfl
        by_cases hcov : 15 + g.length ≤ u.length
        · -- the match ends at or before the occurrence: it survives in `rest`
          have hlen1 : (jobsLit ++ g ++ ['=']).length = 15 + g.length := by
            simp [List.length_append, h14]
            omega
          have hsplit : c :: cs = (jobsLit ++ g ++ ['=']) ++ rest := by
            rw [hdec]
            simp [List.append_assoc]
          have hdrop1 : rest = (c :: cs).drop (15 + g.length) := by
            rw [hsplit, ← hlen1, List.drop_left]
          have hdrop2 : (c :: cs).drop (15 + g.length) =
              u.drop (15 + g.length) ++ (jobsT ++ w) := by
            rw [hs, List.drop_append_of_le_length hcov]
          have hrl : rest.length ≤ n := by
            have := matchJobsAt_consumes _ _ _ hm
            simp [List.length_cons] at this
            simp [List.length_cons] at hle
            omega
          exact List.mem_cons_of_mem g (ih rest _ w hrl (hdrop1.trans hdrop2))
        · -- the match overlaps the start of the occurrence
          push_neg at hcov
          have h2 : (c :: cs)[u.length + 5]? = some ('2') := by
            rw [hs, List.getElem?_append_right (by omega)]
            have hx5 : u.length + 5 - u.length = 5 := by omega
            rw [hx5, List.getElem?_append_left (by rw [jobsT_len]; omega)]
            rfl
          rcases Nat.lt_or_ge (u.length + 5) 14 with hq1 | hq1
          · -- the `2` would sit inside the literal: forces the match to start
            -- exactly at the occurrence
            have hlitq : jobsLit[u.length + 5]? = some ('2') := by
              rw [hdec] at h2
              rwa [List.getElem?_append_left (by omega)] at h2
            have h5 : u.length + 5 = 5 := jobsLit_two_only_at_5 _ hq1 hlitq
            have hu : u = [] := List.eq_nil_of_length_eq_zero (by omega)
            subst hu
            rw [List.nil_append] at hs
            rw [hs, matchJobsAt_target w] at hm
            have hgf : fooG = g := congrArg Prod.fst (Option.some.inj hm)
            rw [← hgf]
            exact List.mem_cons_self _ _
          · rcases Nat.lt_or_ge (u.length + 5) (14 + g.length) with hq2 | hq2
            · -- the `2` would sit inside the `[A-Z_]*` run
              exfalso
              have hgq : g[u.length + 5 - 14]? = some ('2') := by
                rw [hdec] at h2
                rw [List.getElem?_append_right (by omega)] at h2
                rw [h14] at h2
                rwa [List.getElem?_append_left (by omega)] at h2
              exact absurd (hall _ (List.getElem?_mem hgq)) (by decide)
            · rcases Nat.lt_or_ge (u.length + 5) (15 + g.length) with hq3 | hq3
              · -- the `2` would sit on the final `=`
                exfalso
                rw [hdec] at h2
                rw [List.getElem?_append_right (by omega)] at h2
                rw [h14] at h2
                rw [List.getElem?_append_right (by omega)] at h2
                have hidx : u.length + 5 - 14 - g.length = 0 := by omega
                rw [hidx] at h2
                simp at h2
              · -- the final `=` would sit among the first five characters
                -- `RUN_E` of the occurrence
                exfalso
                have hk : (c :: cs)[14 + g.length]? = some ('=') := by
                  have hsplit : c :: cs = (jobsLit ++ g) ++ ('=' :: rest) := by
                    rw [hdec]
                    simp [List.append_assoc]
                  have hlen2 : (jobsLit ++ g).length = 14 + g.length := by
                    simp [List.length_append, h14]
                  rw [hsplit, List.getElem?_append_right (by rw [hlen2])]
                  have hidx : 14 + g.length - (jobsLit ++ g).length = 0 := by
                    rw [hlen2]
                    omega
                  rw [hidx]
                  exact List.getElem?_cons_zero
                have hkU : jobsT[14 + g.length - u.length]? = some ('=') := by
                  rw [hs] at hk
                  rw [List.getElem?_append_right (by omega)] at hk
                  rwa [List.getElem?_append_left (by rw [jobsT_len]; omega)] at hk
                exact jobsT_head_no_eq _ (by omega) hkU

/-! ### The occurrence of `bash scripts/run_e2e_tests.sh --suite="accessibility"`
is always found

Same scheme as for the jobs regex.  The distinctive character is the `/` at
offset 12 of the occurrence: it cannot lie in the second literal, in the
`[a-zA-Z_-]*` run or on the closing quote of an overlapping match; if it lies
on the wildcard, the second literal would have to start with the occurrence's
`r` at offset 13; if it lies in the first literal it pins the match to the
occurrence's start; and a match whose closing quote falls among the first
twelve characters `bash scripts` of the occurrence is impossible. -/

theorem scriptLit1_len : scriptLit1.length = 26 := rfl

theorem scriptLit2_len : scriptLit2.length = 12 := rfl

theorem scriptT_len : scriptT.length = 53 := rfl

theorem scriptLit1_slash_only_at_12 :
    ∀ j : Nat, j < 26 → scriptLit1[j]? = some ('/') → j = 12 := by
  decide

theorem scriptLit2_no_slash : ∀ j : Nat, j < 12 → ¬ (scriptLit2[j]? = some ('/')) := by
  decide

theorem scriptT_head_no_quote : ∀ j : Nat, j < 12 → ¬ (scriptT[j]? = some quoteChar) := by
  decide

theorem accG_mem_scriptFindall_aux :
    ∀ n s u w, s.length ≤ n → s = u ++ (scriptT ++ w) →
      accG ∈ findallFrom matchScriptAt s := by
  intro n
  induction n with
  | zero =>
    intro s u w hle hs
    exfalso
    rw [hs] at hle
    simp [List.length_append] at hle
    exact absurd hle.2.1 (by decide)
  | succ n ih =>
    intro s u w hle hs
    cases s with
    | nil =>
      exfalso
      have := congrArg List.length hs
      simp [List.length_append] at this
      rw [scriptT_len] at this
      omega
    | cons c cs =>
      cases hm : matchScriptAt (c :: cs) with
      | none =>
        rw [findallFrom_cons_none hm]
        cases u with
        | nil =>
          exfalso
          rw [List.nil_append] at hs
          rw [hs, matchScriptAt_target w] at hm
          exact Option.noConfusion hm
        | cons a u2 =>
          have hx : c :: cs = a :: (u2 ++ (scriptT ++ w)) := by rw [hs]; rfl
          injection hx with hx1 hx2
          have hlen : cs.length ≤ n := by
            simp [List.length_cons] at hle
            omega
          exact ih cs u2 w hlen hx2
      | some gr =>
        obtain ⟨g, rest⟩ := gr
        obtain ⟨⟨wc, hdec⟩, hall⟩ := matchScriptAt_eq_some hm
        rw [findallFrom_cons_some matchScriptAt_consumes hm]
        have h26 : scriptLit1.length = 26 := rfl
        have h12 : scriptLit2.length = 12 := rfl
        by_cases hcov : 40 + g.length ≤ u.length
        · -- the match ends at or before the occurrence: it survives in `rest`
          have hlen1 : (scriptLit1 ++ wc :: (scriptLit2 ++ g ++ [quoteChar])).length =
              40 + g.length := by
            simp [List.length_append, h26, h12]
            omega
          have hsplit : c :: cs =
              (scriptLit1 ++ wc :: (scriptLit2 ++ g ++ [quoteChar])) ++ rest := by
            rw [hdec]
            simp [List.append_assoc]
          have hdrop1 : rest = (c :: cs).drop (40 + g.length) := by
            rw [hsplit, ← hlen1, List.drop_left]
          have hdrop2 : (c :: cs).drop (40 + g.length) =
              u.drop (40 + g.length) ++ (scriptT ++ w) := by
            rw [hs, List.drop_append_of_le_length hcov]
          have hrl : rest.length ≤ n := by
            have := matchScriptAt_consumes _ _ _ hm
            simp [List.length_cons] at this
            simp [List.length_cons] at hle
            omega
          exact List.mem_cons_of_mem g (ih rest _ w hrl (hdrop1.trans hdrop2))
        · -- the match overlaps the start of the occurrence
          push_neg at hcov
          have hslash : (c :: cs)[u.length + 12]? = some ('/') := by
            rw [hs, List.getElem?_append_right (by omega)]
            have hx12 : u.length + 12 - u.length = 12 := by omega
            rw [hx12, List.getElem?_append_left (by rw [scriptT_len]; omega)]
            rfl
          rcases Nat.lt_or_ge (u.length + 12) 26 with hq1 | hq1
          · -- the `/` sits inside the first literal: the match starts exactly
            -- at the occurrence
            have hlitq : scriptLit1[u.length + 12]? = some ('/') := by
              rw [hdec] at hslash
              rwa [List.getElem?_append_left (by omega)] at hslash
            have h5 : u.length + 12 = 12 := scriptLit1_slash_only_at_12 _ hq1 hlitq
            have hu : u = [] := List.eq_nil_of_length_eq_zero (by omega)
            subst hu
            rw [List.nil_append] at hs
            rw [hs, matchScriptAt_target w] at hm
            have hgf : accG = g := congrArg Prod.fst (Option.some.inj hm)
            rw [← hgf]
            exact List.mem_cons_self _ _
          · rcases Nat.lt_or_ge (u.length + 12) 27 with hq2 | hq2
            · -- the `/` sits on the wildcard: the second literal would have to
              -- start at offset 13 of the occurrence
              exfalso
              have hq26 : u.length + 12 = 26 := by omega
              have hu14 : u.length = 14 := by omega
              have hmatch27 : (c :: cs)[27]? = some ('s') := by
                rw [hdec, List.getElem?_append_right (by omega)]
                have hx : 27 - scriptLit1.length = 0 + 1 := by rw [h26]
                rw [hx, List.getElem?_cons_succ,
                  List.getElem?_append_left (by rw [scriptLit2_len]; omega)]
                rfl
              have hocc27 : (c :: cs)[27]? = some ('r') := by
                rw [hs, List.getElem?_append_right (by omega)]
                have hx : 27 - u.length = 13 := by omega
                rw [hx, List.getElem?_append_left (by rw [scriptT_len]; omega)]
                rfl
              rw [hmatch27] at hocc27
              exact absurd (Option.some.inj hocc27) (by decide)
            · -- positions at or past the second literal
              have hdecq : (c :: cs)[u.length + 12]? =
                  (scriptLit2 ++ (g ++ quoteChar :: rest))[u.length + 12 - 27]? := by
                rw [hdec, List.getElem?_append_right (by omega)]
                have hx : u.length + 12 - scriptLit1.length = (u.length + 12 - 27) + 1 := by
                  rw [h26]
                  omega
                rw [hx, List.getElem?_cons_succ]
              rcases Nat.lt_or_ge (u.length + 12) 39 with hq3 | hq3
              · -- the `/` would sit inside the second literal
                exfalso
                rw [hdecq, List.getElem?_append_left (by rw [scriptLit2_len]; omega)] at hslash
                exact scriptLit2_no_slash _ (by omega) hslash
              · rcases Nat.lt_or_ge (u.length + 12) (39 + g.length) with hq4 | hq4
                · -- the `/` would sit inside the `[a-zA-Z_-]*` run
                  exfalso
                  rw [hdecq, List.getElem?_append_right (by rw [scriptLit2_len]; omega)] at hslash
                  rw [h12] at hslash
                  rw [List.getElem?_append_left (by omega)] at hslash
                  exact absurd (hall _ (List.getElem?_mem hslash)) (by decide)
                · rcases Nat.lt_or_ge (u.length + 12) (40 + g.length) with hq5 | hq5
                  · -- the `/` would sit on the closing quote
                    exfalso
                    rw [hdecq, List.getElem?_append_right (by rw [scriptLit2_len]; omega)] at hslash
                    rw [h12] at hslash
                    rw [List.getElem?_append_right (by omega)] at hslash
                    have hidx : u.length + 12 - 27 - 12 - g.length = 0 := by omega
                    rw [hidx, List.getElem?_cons_zero] at hslash
                    exact absurd (Option.some.inj hslash) (by decide)
                  · -- the closing quote would sit among the first twelve
                    -- characters of the occurrence
                    exfalso
                    have hk : (c :: cs)[39 + g.length]? = some quoteChar := by
                      have hsplit : c :: cs =
                          (scriptLit1 ++ wc :: (scriptLit2 ++ g)) ++ (quoteChar :: rest) := by
                        rw [hdec]
                        simp [List.append_assoc]
                      have hlen2 : (scriptLit1 ++ wc :: (scriptLit2 ++ g)).length =
                          39 + g.length := by
                        simp [List.length_append, h26, h12]
                        omega
                      rw [hsplit, List.getElem?_append_right (by rw [hlen2])]
                      have hidx : 39 + g.length - (scriptLit1 ++ wc :: (scriptLit2 ++ g)).length
                          = 0 := by
                        rw [hlen2]
                        omega
                      rw [hidx]
                      exact List.getElem?_cons_zero
                    have hkU : scriptT[39 + g.length - u.length]? = some quoteChar := by
                      rw [hs] at hk
                      rw [List.getElem?_append_right (by omega)] at hk
                      rwa [List.getElem?_append_left (by rw [scriptT_len]; omega)] at hk
                    exact scriptT_head_no_quote _ (by omega) hkU

theorem findallFrom_eq_cons {m : List Char → Option (List Char × List Char)}
    (hm : ∀ s g rest, m s = some (g, rest) → rest.length < s.length)
    {s g rest : List Char} (h : m s = some (g, rest)) :
    findallFrom m s = g :: findallFrom m rest := by
  cases s with
  | nil =>
    have := hm _ _ _ h
    simp at this
  | cons c cs => exact findallFrom_cons_some hm h

theorem findallFrom_eq_nil {m : List Char → Option (List Char × List Char)} :
    ∀ s : List Char, (∀ i : Nat, i ≤ s.length → m (List.drop i s) = none) →
      findallFrom m s = [] := by
  intro s
  induction s with
  | nil => intro _; rfl
  | cons c cs ih =>
    intro h
    have h0 : m (c :: cs) = none := by
      have := h 0 (Nat.zero_le _)
      simpa using this
    rw [findallFrom_cons_none h0]
    exact ih (fun i hi => by
      have := h (i + 1) (by simp [List.length_cons]; omega)
      simpa using this)

theorem pyRemove_not_mem (x : String) :
    ∀ l : List String, x ∉ l →
      pyRemove x l = Except.error (CheckError.valueError removeErrMsg) := by
  intro l
  induction l with
  | nil => intro _; rfl
  | cons y ys ih =>
    intro h
    have hyx : ¬ y = x := fun e => h (e ▸ List.mem_cons_self y ys)
    show (if y = x then Except.ok ys
      else Except.map (fun l => y :: l) (pyRemove x ys)) = _
    rw [if_neg hyx, ih (fun hmem => h (List.mem_cons_of_mem y hmem))]
    rfl

theorem pyRemove_error_msg (x : String) :
    ∀ (l : List String) (e : CheckError), pyRemove x l = Except.error e →
      e = CheckError.valueError removeErrMsg := by
  intro l
  induction l with
  | nil =>
    intro e h
    exact (Except.error.inj h).symm
  | cons y ys ih =>
    intro e h
    by_cases hyx : y = x
    · rw [show pyRemove x (y :: ys) = if y = x then Except.ok ys
        else Except.map (fun l => y :: l) (pyRemove x ys) from rfl, if_pos hyx] at h
      exact absurd h (by exact Except.noConfusion)
    · rw [show pyRemove x (y :: ys) = if y = x then Except.ok ys
        else Except.map (fun l => y :: l) (pyRemove x ys) from rfl, if_neg hyx] at h
      cases hrec : pyRemove x ys with
      | error e2 =>
        rw [hrec] at h
        have : e = e2 := (Except.error.inj h).symm
        rw [this]
        exact ih e2 hrec
      | ok m =>
        rw [hrec] at h
        exact absurd h (by exact Except.noConfusion)

theorem pyRemove_ok_not_mem (x : String) :
    ∀ (l l' : List String), pyRemove x l = Except.ok l' →
      ∀ a : String, a ∉ l → a ∉ l' := by
  intro l
  induction l with
  | nil =>
    intro l' h
    exact absurd h (by exact Except.noConfusion)
  | cons y ys ih =>
    intro l' h a ha
    by_cases hyx : y = x
    · rw [show pyRemove x (y :: ys) = if y = x then Except.ok ys
        else Except.map (fun l => y :: l) (pyRemove x ys) from rfl, if_pos hyx] at h
      have : ys = l' := Except.ok.inj h
      rw [← this]
      exact fun hmem => ha (List.mem_cons_of_mem y hmem)
    · rw [show pyRemove x (y :: ys) = if y = x then Except.ok ys
        else Except.map (fun l => y :: l) (pyRemove x ys) from rfl, if_neg hyx] at h
      cases hrec : pyRemove x ys with
      | error e =>
        rw [hrec] at h
        exact absurd h (by exact Except.noConfusion)
      | ok m =>
        rw [hrec] at h
        have hl' : y :: m = l' := Except.ok.inj h
        rw [← hl']
        intro hmem
        rcases List.mem_cons.mp hmem with h1 | h1
        · exact ha (h1 ▸ List.mem_cons_self y ys)
        · exact ih m hrec a (fun hmem2 => ha (List.mem_cons_of_mem y hmem2)) h1

theorem foldl_pyRemove_error (a : String) :
    ∀ ts : List String, a ∈ ts → ∀ l : List String, a ∉ l →
      List.foldlM (fun acc t => pyRemove t acc) l ts =
        Except.error (CheckError.valueError removeErrMsg) := by
  intro ts
  induction ts with
  | nil => intro ha; exact absurd ha (by simp)
  | cons t ts ih =>
    intro ha l hl
    show Except.bind (pyRemove t l) _ = _
    rcases List.mem_cons.mp ha with h1 | h1
    · rw [← h1, pyRemove_not_mem a l hl]
      rfl
    · cases hrem : pyRemove t l with
      | error e =>
        rw [pyRemove_error_msg t l e hrem]
        rfl
      | ok l2 =>
        show (Except.ok l2).bind _ = _
        have : List.foldlM (fun acc t => pyRemove t acc) l2 ts =
            Except.error (CheckError.valueError removeErrMsg) :=
          ih h1 l2 (pyRemove_ok_not_mem t l l2 hrem a hl)
        exact this

theorem pyRemove_first_occurrence (x : String) :
    ∀ ys zs : List String, x ∉ ys → pyRemove x (ys ++ x :: zs) = Except.ok (ys ++ zs) := by
  intro ys
  induction ys with
  | nil =>
    intro zs _
    show (if x = x then Except.ok zs else _) = _
    rw [if_pos rfl]
    rfl
  | cons y ys ih =>
    intro zs h
    have hyx : ¬ y = x := fun e => h (e ▸ List.mem_cons_self y ys)
    show (if y = x then _ else Except.map (fun l => y :: l) (pyRemove x (ys ++ x :: zs))) = _
    rw [if_neg hyx, ih zs (fun hmem => h (List.mem_cons_of_mem y hmem))]
    rfl

theorem checksAfterRemoval_ok (j : List String) (hne : j ≠ [])
    (hsent : SAMPLE_TEST_SUITE_THAT_IS_KNOWN_TO_EXIST ∈ j) :
    checksAfterRemoval j j j = Except.ok "Done!" := by
  unfold checksAfterRemoval
  rw [if_neg hne, if_neg hne, if_neg hne, if_neg (not_not_intro hsent),
    if_neg (not_not_intro hsent), if_neg (not_not_intro hsent),
    if_neg (not_not_intro ⟨rfl, rfl⟩)]

theorem mainChecks_success (p j s adjusted : List String)
    (hrem : removeExcluded p = Except.ok adjusted)
    (hpj : adjusted = j) (hjs : j = s) (hne : j ≠ [])
    (hsent : SAMPLE_TEST_SUITE_THAT_IS_KNOWN_TO_EXIST ∈ j) :
    mainChecks p j s = Except.ok "Done!" := by
  subst hjs
  subst hpj
  unfold mainChecks
  rw [hrem]
  exact checksAfterRemoval_ok _ hne hsent

theorem mainChecks_eq_checks (p j s adjusted : List String)
    (hrem : removeExcluded p = Except.ok adjusted) :
    mainChecks p j s = checksAfterRemoval adjusted j s := by
  unfold mainChecks
  rw [hrem]
  rfl

theorem checks_emptyJobs (p j s : List String) (hj : j = []) :
    checksAfterRemoval p j s = Except.error (CheckError.validation msgEmptyJobs) := by
  unfold checksAfterRemoval
  rw [if_pos hj]

theorem checks_emptyScripts (p j s : List String) (hj : j ≠ []) (hs : s = []) :
    checksAfterRemoval p j s = Except.error (CheckError.validation msgEmptyScripts) := by
  unfold checksAfterRemoval
  rw [if_neg hj, if_pos hs]

theorem checks_emptyProtractor (p j s : List String) (hj : j ≠ []) (hs : s ≠ [])
    (hp : p = []) :
    checksAfterRemoval p j s = Except.error (CheckError.validation msgEmptyProtractor) := by
  unfold checksAfterRemoval
  rw [if_neg hj, if_neg hs, if_pos hp]

theorem checks_sentinelJobs (p j s : List String) (hj : j ≠ []) (hs : s ≠ []) (hp : p ≠ [])
    (h : SAMPLE_TEST_SUITE_THAT_IS_KNOWN_TO_EXIST ∉ j) :
    checksAfterRemoval p j s = Except.error (CheckError.validation msgSentinelJobs) := by
  unfold checksAfterRemoval
  rw [if_neg hj, if_neg hs, if_neg hp, if_pos h]

theorem checks_sentinelScripts (p j s : List String) (hj : j ≠ []) (hs : s ≠ []) (hp : p ≠ [])
    (hsj : SAMPLE_TEST_SUITE_THAT_IS_KNOWN_TO_EXIST ∈ j)
    (h : SAMPLE_TEST_SUITE_THAT_IS_KNOWN_TO_EXIST ∉ s) :
    checksAfterRemoval p j s = Except.error (CheckError.validation msgSentinelScripts) := by
  unfold checksAfterRemoval
  rw [if_neg hj, if_neg hs, if_neg hp, if_neg (not_not_intro hsj), if_pos h]

theorem checks_sentinelProtractor (p j s : List String) (hj : j ≠ []) (hs : s ≠ [])
    (hp : p ≠ []) (hsj : SAMPLE_TEST_SUITE_THAT_IS_KNOWN_TO_EXIST ∈ j)
    (hss : SAMPLE_TEST_SUITE_THAT_IS_KNOWN_TO_EXIST ∈ s)
    (h : SAMPLE_TEST_SUITE_THAT_IS_KNOWN_TO_EXIST ∉ p) :
    checksAfterRemoval p j s = Except.error (CheckError.validation msgSentinelProtractor) := by
  unfold checksAfterRemoval
  rw [if_neg hj, if_neg hs, if_neg hp, if_neg (not_not_intro hsj), if_neg (not_not_intro hss),
    if_pos h]

theorem checks_notInSync (p j s : List String) (hj : j ≠ []) (hs : s ≠ []) (hp : p ≠ [])
    (hsj : SAMPLE_TEST_SUITE_THAT_IS_KNOWN_TO_EXIST ∈ j)
    (hss : SAMPLE_TEST_SUITE_THAT_IS_KNOWN_TO_EXIST ∈ s)
    (hsp : SAMPLE_TEST_SUITE_THAT_IS_KNOWN_TO_EXIST ∈ p)
    (hdiff : ¬ (p = j ∧ j = s)) :
    checksAfterRemoval p j s = Except.error (CheckError.validation msgNotInSync) := by
  unfold checksAfterRemoval
  rw [if_neg hj, if_neg hs, if_neg hp, if_neg (not_not_intro hsj), if_neg (not_not_intro hss),
    if_neg (not_not_intro hsp), if_pos hdiff]

/-- Claim C1 is false as stated: for the triple in which all three lists are
`["explorationImprovementsTab"]` — pairwise equal, non-empty, and containing
the sentinel — the validator does not complete: the removal loop raises a
`ValueError` because `'full'` is not in the list. -/
theorem claimC1_counterexample :
    ((["explorationImprovementsTab"] : List String) ≠ []) ∧
    SAMPLE_TEST_SUITE_THAT_IS_KNOWN_TO_EXIST ∈ (["explorationImprovementsTab"] : List String) ∧
    mainChecks ["explorationImprovementsTab"] ["explorationImprovementsTab"]
        ["explorationImprovementsTab"] =
      Except.error (CheckError.valueError removeErrMsg) :=
  ⟨by decide, by decide, by rfl⟩

/-- Claim C1 (amended): for every triple of suite-name lists such that the
allow-list removal succeeds on the test-runner list and the adjusted
test-runner list, the jobs list and the script list are pairwise equal,
non-empty, and contain the sentinel `explorationImprovementsTab`, the
validator completes without raising and prints the success message. -/
theorem claimC1_prop (p j s adjusted : List String)
    (hrem : removeExcluded p = Except.ok adjusted)
    (hpj : adjusted = j) (hjs : j = s) (hne : j ≠ [])
    (hsent : SAMPLE_TEST_SUITE_THAT_IS_KNOWN_TO_EXIST ∈ j) :
    mainChecks p j s = Except.ok "Done!" :=
  mainChecks_success p j s adjusted hrem hpj hjs hne hsent

/-- Witness for the amended claim C1 at a concrete triple. -/
theorem claimC1_witness :
    mainChecks
      ["full", "classroomPageFileUploadFeatures", "fileUploadFeatures",
        "topicAndStoryEditorFileUploadFeatures", "explorationImprovementsTab"]
      ["explorationImprovementsTab"] ["explorationImprovementsTab"] = Except.ok "Done!" :=
  claimC1_prop _ _ _ ["explorationImprovementsTab"] (by rfl) rfl rfl (by decide) (by decide)

/-- Claim C2 is false as stated: the adjusted test-runner list `[]` differs
from the jobs and script lists `["explorationImprovementsTab"]`, yet the
validator raises the emptiness error about `protractor.conf.js`, not the
"not in sync" error. -/
theorem claimC2_counterexample :
    removeExcluded TEST_SUITES_NOT_RUN_ON_TRAVIS = Except.ok [] ∧
    (([] : List String) ≠ ["explorationImprovementsTab"]) ∧
    mainChecks TEST_SUITES_NOT_RUN_ON_TRAVIS ["explorationImprovementsTab"]
        ["explorationImprovementsTab"] =
      Except.error (CheckError.validation msgEmptyProtractor) ∧
    msgEmptyProtractor ≠ msgNotInSync :=
  ⟨by rfl, by decide, by rfl, by decide⟩

/-- Claim C2 (amended): for every triple of adjusted suite-name lists that
are all non-empty and all contain the sentinel, if some pair of them differs
then the validator raises the "not in sync" error. -/
theorem claimC2_prop (p j s : List String)
    (hp : p ≠ []) (hj : j ≠ []) (hs : s ≠ [])
    (hsp : SAMPLE_TEST_SUITE_THAT_IS_KNOWN_TO_EXIST ∈ p)
    (hsj : SAMPLE_TEST_SUITE_THAT_IS_KNOWN_TO_EXIST ∈ j)
    (hss : SAMPLE_TEST_SUITE_THAT_IS_KNOWN_TO_EXIST ∈ s)
    (hdiff : ¬ (p = j ∧ j = s)) :
    checksAfterRemoval p j s = Except.error (CheckError.validation msgNotInSync) :=
  checks_notInSync p j s hj hs hp hsj hss hsp hdiff

/-- Witness for the amended claim C2 at a concrete differing triple. -/
theorem claimC2_witness :
    checksAfterRemoval ["explorationImprovementsTab"] ["explorationImprovementsTab"]
        ["explorationImprovementsTab", "b"] =
      Except.error (CheckError.validation msgNotInSync) :=
  claimC2_prop _ _ _ (by decide) (by decide) (by decide) (by decide) (by decide) (by decide)
    (by decide)

/-- Claim C6 is false as stated: the test-runner list contains the
allow-listed `'full'`, absent from the other two lists, and removal makes the
three lists equal to `["a"]`, yet the validator raises the sentinel error for
the jobs list instead of passing. -/
theorem claimC6_counterexample :
    ("full" : String) ∈ (["full", "classroomPageFileUploadFeatures", "fileUploadFeatures",
        "topicAndStoryEditorFileUploadFeatures", "a"] : List String) ∧
    ("full" : String) ∉ (["a"] : List String) ∧
    removeExcluded ["full", "classroomPageFileUploadFeatures", "fileUploadFeatures",
        "topicAndStoryEditorFileUploadFeatures", "a"] = Except.ok ["a"] ∧
    mainChecks ["full", "classroomPageFileUploadFeatures", "fileUploadFeatures",
        "topicAndStoryEditorFileUploadFeatures", "a"] ["a"] ["a"] =
      Except.error (CheckError.validation msgSentinelJobs) :=
  ⟨by decide, by decide, by rfl, by rfl⟩

/-- Claim C6 (amended): for every test-runner list containing an allow-listed
name absent from the other two lists, if removing the allow-list entries
succeeds and makes the three lists equal, and the resulting lists are
non-empty and contain the sentinel, then the validator passes without
raising. -/
theorem claimC6_prop (p j s adjusted : List String) (x : String)
    (_hx : x ∈ TEST_SUITES_NOT_RUN_ON_TRAVIS) (_hxp : x ∈ p) (_hxj : x ∉ j) (_hxs : x ∉ s)
    (hrem : removeExcluded p = Except.ok adjusted)
    (hpj : adjusted = j) (hjs : j = s) (hne : j ≠ [])
    (hsent : SAMPLE_TEST_SUITE_THAT_IS_KNOWN_TO_EXIST ∈ j) :
    mainChecks p j s = Except.ok "Done!" :=
  mainChecks_success p j s adjusted hrem hpj hjs hne hsent

/-- Witness for the amended claim C6 at a concrete triple. -/
theorem claimC6_witness :
    mainChecks
      ["full", "classroomPageFileUploadFeatures", "fileUploadFeatures",
        "topicAndStoryEditorFileUploadFeatures", "explorationImprovementsTab", "zz"]
      ["explorationImprovementsTab", "zz"] ["explorationImprovementsTab", "zz"] =
      Except.ok "Done!" :=
  claimC6_prop _ _ _ ["explorationImprovementsTab", "zz"] "full" (by decide) (by decide)
    (by decide) (by decide) (by rfl) rfl rfl (by decide) (by decide)

/-- Claim C7: when exactly one of the three lists reaching the checks (the
jobs-derived list, the script-derived list, or the adjusted test-runner list)
is empty, the validator raises the emptiness error naming that source; the
three implications follow the check order of the source. -/
theorem claimC7_prop (p j s adjusted : List String)
    (hrem : removeExcluded p = Except.ok adjusted) :
    (j = [] → mainChecks p j s = Except.error (CheckError.validation msgEmptyJobs)) ∧
    (j ≠ [] → s = [] →
      mainChecks p j s = Except.error (CheckError.validation msgEmptyScripts)) ∧
    (j ≠ [] → s ≠ [] → adjusted = [] →
      mainChecks p j s = Except.error (CheckError.validation msgEmptyProtractor)) := by
  refine ⟨?_, ?_, ?_⟩
  · intro hj
    rw [mainChecks_eq_checks p j s adjusted hrem]
    exact checks_emptyJobs _ _ _ hj
  · intro hj hs
    rw [mainChecks_eq_checks p j s adjusted hrem]
    exact checks_emptyScripts _ _ _ hj hs
  · intro hj hs hp
    rw [mainChecks_eq_checks p j s adjusted hrem]
    exact checks_emptyProtractor _ _ _ hj hs hp

/-- Witness for claim C7: the adjusted test-runner list is empty and the
raised error names `protractor.conf.js`. -/
theorem claimC7_witness :
    mainChecks TEST_SUITES_NOT_RUN_ON_TRAVIS ["a"] ["a"] =
      Except.error (CheckError.validation msgEmptyProtractor) :=
  (claimC7_prop TEST_SUITES_NOT_RUN_ON_TRAVIS ["a"] ["a"] [] (by rfl)).2.2
    (by decide) (by decide) rfl

/-- Claim C8 is false as stated: the sentinel is absent from the empty
jobs-derived list, yet the validator raises the emptiness error for the jobs
section, which is none of the three sentinel errors. -/
theorem claimC8_counterexample :
    SAMPLE_TEST_SUITE_THAT_IS_KNOWN_TO_EXIST ∉ ([] : List String) ∧
    mainChecks
        ["full", "classroomPageFileUploadFeatures", "fileUploadFeatures",
          "topicAndStoryEditorFileUploadFeatures", "explorationImprovementsTab"]
        [] ["explorationImprovementsTab"] =
      Except.error (CheckError.validation msgEmptyJobs) ∧
    msgEmptyJobs ≠ msgSentinelJobs ∧ msgEmptyJobs ≠ msgSentinelScripts ∧
    msgEmptyJobs ≠ msgSentinelProtractor :=
  ⟨by decide, by rfl, by decide, by decide, by decide⟩

/-- Claim C8 (amended): provided the three lists reaching the checks are
non-empty, if the sentinel `explorationImprovementsTab` is absent from at
least one of them, the validator raises the sentinel error identifying the
first failing sentinel check, in the source order jobs, script,
test-runner. -/
theorem claimC8_prop (p j s adjusted : List String)
    (hrem : removeExcluded p = Except.ok adjusted)
    (hj : j ≠ []) (hs : s ≠ []) (hp : adjusted ≠ []) :
    (SAMPLE_TEST_SUITE_THAT_IS_KNOWN_TO_EXIST ∉ j →
      mainChecks p j s = Except.error (CheckError.validation msgSentinelJobs)) ∧
    (SAMPLE_TEST_SUITE_THAT_IS_KNOWN_TO_EXIST ∈ j →
      SAMPLE_TEST_SUITE_THAT_IS_KNOWN_TO_EXIST ∉ s →
      mainChecks p j s = Except.error (CheckError.validation msgSentinelScripts)) ∧
    (SAMPLE_TEST_SUITE_THAT_IS_KNOWN_TO_EXIST ∈ j →
      SAMPLE_TEST_SUITE_THAT_IS_KNOWN_TO_EXIST ∈ s →
      SAMPLE_TEST_SUITE_THAT_IS_KNOWN_TO_EXIST ∉ adjusted →
      mainChecks p j s = Except.error (CheckError.validation msgSentinelProtractor)) := by
  refine ⟨?_, ?_, ?_⟩
  · intro hnj
    rw [mainChecks_eq_checks p j s adjusted hrem]
    exact checks_sentinelJobs _ _ _ hj hs hp hnj
  · intro hsj hns
    rw [mainChecks_eq_checks p j s adjusted hrem]
    exact checks_sentinelScripts _ _ _ hj hs hp hsj hns
  · intro hsj hss hnp
    rw [mainChecks_eq_checks p j s adjusted hrem]
    exact checks_sentinelProtractor _ _ _ hj hs hp hsj hss hnp

/-- Witness for the amended claim C8: the sentinel is missing from the jobs
list and the jobs sentinel error is raised. -/
theorem claimC8_witness :
    mainChecks
      ["full", "classroomPageFileUploadFeatures", "fileUploadFeatures",
        "topicAndStoryEditorFileUploadFeatures", "explorationImprovementsTab"]
      ["x"] ["explorationImprovementsTab"] =
      Except.error (CheckError.validation msgSentinelJobs) :=
  (claimC8_prop _ ["x"] ["explorationImprovementsTab"] ["explorationImprovementsTab"]
    (by rfl) (by decide) (by decide) (by decide)).1 (by decide)

/-- Claim C10: a test-runner list missing one of the four allow-listed names
makes `main` raise the `ValueError` of `list.remove` regardless of the other
two lists, before any of the descriptive checks; and `list.remove` deletes
only the first occurrence of its argument. -/
theorem claimC10_prop (p j s : List String) (a x : String) (ys zs : List String) :
    (a ∈ TEST_SUITES_NOT_RUN_ON_TRAVIS → a ∉ p →
      mainChecks p j s = Except.error (CheckError.valueError removeErrMsg)) ∧
    (x ∉ ys → pyRemove x (ys ++ x :: zs) = Except.ok (ys ++ zs)) := by
  constructor
  · intro ha hap
    have herr : removeExcluded p = Except.error (CheckError.valueError removeErrMsg) :=
      foldl_pyRemove_error a TEST_SUITES_NOT_RUN_ON_TRAVIS ha p hap
    unfold mainChecks
    rw [herr]
    rfl
  · intro hxy
    exact pyRemove_first_occurrence x ys zs hxy

/-- Witness for claim C10: a missing `'full'` raises the `ValueError` even
with both travis lists empty, and removing `"a"` from `["b", "a", "a"]`
deletes only the first `"a"`. -/
theorem claimC10_witness :
    mainChecks ["x"] [] [] = Except.error (CheckError.valueError removeErrMsg) ∧
    pyRemove "a" (["b"] ++ "a" :: ["a"]) = Except.ok (["b"] ++ ["a"]) :=
  ⟨(claimC10_prop ["x"] [] [] "full" "a" ["b"] ["a"]).1 (by decide) (by decide),
    (claimC10_prop ["x"] [] [] "full" "a" ["b"] ["a"]).2 (by decide)⟩

/-- Claim C3: the jobs extractor returns the sorted list of all the
`RUN_E2E_TESTS_..=` matches, lower-cased and converted to camelCase; in
particular, whenever the jobs string contains `RUN_E2E_TESTS_FOO_BAR=true`,
the output list contains `fooBar`. -/
theorem claimC3_prop (s u v : List Char)
    (h : s = u ++ ("RUN_E2E_TESTS_FOO_BAR=true").toList ++ v) :
    List.Perm (get_e2e_suite_names_from_jobs_travis_yml_file s)
        ((findallFrom matchJobsAt s).map
          (fun job => snake_case_to_camel_case (job.map pyLower)))
      ∧ List.Pairwise strLe (get_e2e_suite_names_from_jobs_travis_yml_file s)
      ∧ ("fooBar").toList ∈ get_e2e_suite_names_from_jobs_travis_yml_file s := by
  refine ⟨pySorted_perm _, pySorted_sorted _, ?_⟩
  have hT : ("RUN_E2E_TESTS_FOO_BAR=true").toList = jobsT ++ ("true").toList := by decide
  have hs2 : s = u ++ (jobsT ++ (("true").toList ++ v)) := by
    rw [h, hT]
    simp [List.append_assoc]
  have hmem := fooG_mem_jobsFindall_aux s.length s u (("true").toList ++ v) (le_refl _) hs2
  exact mem_pySorted ((List.mem_map).mpr ⟨fooG, hmem, by decide⟩)

/-- Witness for claim C3: the jobs string `RUN_E2E_TESTS_FOO_BAR=true` itself
yields an output containing `fooBar`. -/
theorem claimC3_witness :
    ("fooBar").toList ∈
      get_e2e_suite_names_from_jobs_travis_yml_file (("RUN_E2E_TESTS_FOO_BAR=true").toList) :=
  (claimC3_prop _ [] [] (by simp)).2.2

/-- Claim C4: the script extractor returns the sorted list of all the quoted
suite names of the invocation pattern; in particular, whenever the script
string contains `bash scripts/run_e2e_tests.sh --suite="accessibility"`, the
output list contains `accessibility`. -/
theorem claimC4_prop (s u v : List Char)
    (h : s = u ++ ("bash scripts/run_e2e_tests.sh --suite=\"accessibility\"").toList ++ v) :
    List.Perm (get_e2e_suite_names_from_script_travis_yml_file s)
        (findallFrom matchScriptAt s)
      ∧ List.Pairwise strLe (get_e2e_suite_names_from_script_travis_yml_file s)
      ∧ ("accessibility").toList ∈ get_e2e_suite_names_from_script_travis_yml_file s := by
  refine ⟨pySorted_perm _, pySorted_sorted _, ?_⟩
  have hT : ("bash scripts/run_e2e_tests.sh --suite=\"accessibility\"").toList = scriptT := by
    decide
  have hs2 : s = u ++ (scriptT ++ v) := by
    rw [h, hT]
    simp [List.append_assoc]
  have hmem := accG_mem_scriptFindall_aux s.length s u v (le_refl _) hs2
  exact mem_pySorted hmem

/-- Witness for claim C4: the script string consisting of the invocation
itself yields an output containing `accessibility`. -/
theorem claimC4_witness :
    ("accessibility").toList ∈
      get_e2e_suite_names_from_script_travis_yml_file
        (("bash scripts/run_e2e_tests.sh --suite=\"accessibility\"").toList) :=
  (claimC4_prop _ [] [] (by simp)).2.2

/-- Claim C5 is false as stated: this config text contains the object literal
`suites = \x7b alpha: [...], betaGamma: [...] \x7d` (shown by the explicit
decomposition), but the extractor returns the keys of the earlier `suites`
block `\x7bx: [1]\x7d` instead of `['alpha', 'betaGamma']`. -/
theorem claimC5_counterexample :
    ("suites = \x7bx: [1]\x7d suites = \x7b alpha: [...], betaGamma: [...] \x7d").toList =
        ("suites = \x7bx: [1]\x7d ").toList ++
          ("suites = \x7b alpha: [...], betaGamma: [...] \x7d").toList ++ [] ∧
    get_e2e_suite_names_from_protractor_file
        (("suites = \x7bx: [1]\x7d suites = \x7b alpha: [...], betaGamma: [...] \x7d").toList) =
      some [("x").toList] ∧
    some [("x").toList] ≠ some [("alpha").toList, ("betaGamma").toList] :=
  ⟨by decide, by rfl, by decide⟩

/-- Claim C5 (amended): when the first match of the suites pattern captures
the block ` alpha: [...], betaGamma: [...] ` — in particular for every config
text that starts with `suites = \x7b alpha: [...], betaGamma: [...] \x7d` —
the extractor returns `['alpha', 'betaGamma']`, the sorted identifier-like
keys of that block. -/
theorem claimC5_prop (v : List Char) :
    get_e2e_suite_names_from_protractor_file (suitesLit ++ (alphaBlock ++ rBrace :: v)) =
      some [("alpha").toList, ("betaGamma").toList] := by
  have hmatch := matchSuitesAt_block alphaBlock v (by decide) (by decide)
  have hfind := findallFrom_eq_cons matchSuitesAt_consumes hmatch
  unfold get_e2e_suite_names_from_protractor_file
  rw [hfind]
  rfl

/-- Claim C9: when the suites pattern matches at no position of the config
text, the protractor extractor fails (the `IndexError` of indexing the empty
match list, modelled as `none`) rather than returning a value. -/
theorem claimC9_prop (s : List Char)
    (h : ∀ i : Nat, i ≤ s.length → matchSuitesAt (List.drop i s) = none) :
    get_e2e_suite_names_from_protractor_file s = none := by
  have h0 : findallFrom matchSuitesAt s = [] := findallFrom_eq_nil s h
  unfold get_e2e_suite_names_from_protractor_file
  rw [h0]
  rfl

/-- Witness for claim C9 at a concrete config text with no suites pattern. -/
theorem claimC9_witness :
    get_e2e_suite_names_from_protractor_file (("exports.config").toList) = none :=
  claimC9_prop _ (by decide)
